import Mathlib

/-!
Verification development for the parallel extrapolation ODE solver
(`ex_parallel.py`).  The Python source is shallowly embedded: numpy state
vectors become functions `ℕ → ℚ` (all numpy operations used here are
componentwise or broadcast a scalar), Python float arithmetic is modelled
by exact rational (`ℚ`) or real (`ℝ`) arithmetic, a float `NaN` is
modelled by `Option` (`none` = NaN), and a raised exception becomes the
`Except.error` constructor.
-/

namespace ExParallel

/-- A state vector `y` (a 1-D numpy array of floats), modelled as a total
map from component index to `ℚ`. -/
abbrev Vec : Type := ℕ → ℚ

/-- The extrapolation table `T`, a 2-D array of state vectors indexed by
`(row j, column i)`. -/
abbrev Tab : Type := ℕ → ℕ → Vec

/-- Write entry `(j, i)` of the table (the numpy assignment `T[j,i] = v`). -/
def setT (T : Tab) (j i : ℕ) (v : Vec) : Tab :=
  fun j' i' => if j' = j ∧ i' = i then v else T j' i'

/-- One extrapolation update, the body of the double loop of
`fill_extrapolation_table` (ex_parallel.py lines 681-684):
for a symmetric method `T[j,i-1] + (T[j,i-1] - T[j-1,i-1]) / (r^2 - 1)`,
for a non-symmetric method the divisor is `(r - 1)`; numpy broadcasts the
scalar divisor over the vector, hence the componentwise definition. -/
def extrapStep (symmetric : Bool) (r : ℚ) (a b : Vec) : Vec :=
  fun n => if symmetric then a n + (a n - b n) / (r ^ 2 - 1)
           else a n + (a n - b n) / (r - 1)

/-- The scalar `seq(j + j_initshift)/seq(j + j_initshift - i + 1)` used as
the extrapolation step ratio (Python true division of two ints). -/
def seqQuot (shift : ℕ) (seq : ℕ → ℕ) (j i : ℕ) : ℚ :=
  (seq (j + shift) : ℚ) / (seq (j + shift - i + 1) : ℚ)

/-- The innermost assignment `T[j,i] = ...` of `fill_extrapolation_table`
for a fixed column `i` at row `j`. -/
def fillCell (shift : ℕ) (seq : ℕ → ℕ) (symmetric : Bool) (i : ℕ)
    (T : Tab) (j : ℕ) : Tab :=
  setT T j i (extrapStep symmetric (seqQuot shift seq j i) (T j (i-1)) (T (j-1) (i-1)))

/-- The inner loop `for j in range(i, k+1)` of `fill_extrapolation_table`. -/
def fillCol (k shift : ℕ) (seq : ℕ → ℕ) (symmetric : Bool) (T : Tab) (i : ℕ) : Tab :=
  (List.range' i (k + 1 - i)).foldl (fillCell shift seq symmetric i) T

/-- The outer loop of `fill_extrapolation_table`, folding over an explicit
list of column indices. -/
def fillCols (k shift : ℕ) (seq : ℕ → ℕ) (symmetric : Bool)
    (cols : List ℕ) (T : Tab) : Tab :=
  cols.foldl (fillCol k shift seq symmetric) T

/-- Embedding of `fill_extrapolation_table(T, k, j_initshift, seq, symmetric)`
(ex_parallel.py lines 666-684): `for i in range(2, k+1): for j in range(i, k+1):
T[j,i] = ...`.  The in-place numpy mutation is modelled by threading the
table through the folds. -/
def fill_extrapolation_table (T : Tab) (k j_initshift : ℕ) (seq : ℕ → ℕ)
    (symmetric : Bool) : Tab :=
  fillCols k j_initshift seq symmetric (List.range' 2 (k - 1)) T

/-- Embedding of the tail of `compute_extrapolation_table`
(ex_parallel.py lines 612-664): the first column `T[j,1]` is produced by the
parallel stage computations (numeric integration with the external RHS
callable), here taken as the given table `T0`; the remaining entries are
filled by `fill_extrapolation_table(T, k, 0, seq, symmetric)` with
`j_initshift = 0`. -/
def compute_extrapolation_table_fill (T0 : Tab) (k : ℕ) (seq : ℕ → ℕ)
    (symmetric : Bool) : Tab :=
  fill_extrapolation_table T0 k 0 seq symmetric

/-! Loop lemmas for `fill_extrapolation_table`. -/

theorem setT_ne (T : Tab) (j i : ℕ) (v : Vec) {j' i' : ℕ}
    (h : ¬(j' = j ∧ i' = i)) : setT T j i v j' i' = T j' i' := by
  simp [setT, h]

theorem setT_eq (T : Tab) (j i : ℕ) (v : Vec) : setT T j i v j i = v := by
  simp [setT]

/-- Folding `fillCell` over any list of rows changes no cell outside
column `i`, and no cell of column `i` whose row is not in the list. -/
theorem foldl_fillCell_ne (shift : ℕ) (seq : ℕ → ℕ) (symmetric : Bool) (i : ℕ) :
    ∀ (jl : List ℕ) (T : Tab) (j' i' : ℕ), (i' ≠ i ∨ j' ∉ jl) →
      jl.foldl (fillCell shift seq symmetric i) T j' i' = T j' i'
  | [], _, _, _, _ => rfl
  | a :: rest, T, j', i', h => by
    have hrest : i' ≠ i ∨ j' ∉ rest := by
      rcases h with h | h
      · exact Or.inl h
      · exact Or.inr fun hm => h (List.mem_cons_of_mem _ hm)
    have hcell : ¬(j' = a ∧ i' = i) := by
      rcases h with h | h
      · exact fun hc => h hc.2
      · exact fun hc => h (hc.1 ▸ List.mem_cons_self a rest)
    calc (a :: rest).foldl (fillCell shift seq symmetric i) T j' i'
        = rest.foldl (fillCell shift seq symmetric i) (fillCell shift seq symmetric i T a) j' i' := rfl
      _ = fillCell shift seq symmetric i T a j' i' :=
          foldl_fillCell_ne shift seq symmetric i rest _ j' i' hrest
      _ = T j' i' := setT_ne _ _ _ _ hcell

/-- Folding `fillCell` over a duplicate-free list of rows writes, at each
row `j` of the list, the extrapolation step computed from the starting
table's column `i - 1`. -/
theorem foldl_fillCell_write (shift : ℕ) (seq : ℕ → ℕ) (symmetric : Bool)
    {i : ℕ} (hi : 1 ≤ i) :
    ∀ (jl : List ℕ) (T : Tab) (j : ℕ), jl.Nodup → j ∈ jl →
      jl.foldl (fillCell shift seq symmetric i) T j i
        = extrapStep symmetric (seqQuot shift seq j i) (T j (i-1)) (T (j-1) (i-1))
  | [], _, _, _, hmem => absurd hmem (List.not_mem_nil _)
  | a :: rest, T, j, hnd, hmem => by
    have hii : i - 1 ≠ i := by omega
    rcases List.mem_cons.mp hmem with rfl | hj
    · have hnotin : j ∉ rest := (List.nodup_cons.mp hnd).1
      calc (j :: rest).foldl (fillCell shift seq symmetric i) T j i
          = rest.foldl (fillCell shift seq symmetric i) (fillCell shift seq symmetric i T j) j i := rfl
        _ = fillCell shift seq symmetric i T j j i :=
            foldl_fillCell_ne shift seq symmetric i rest _ j i (Or.inr hnotin)
        _ = extrapStep symmetric (seqQuot shift seq j i) (T j (i-1)) (T (j-1) (i-1)) :=
            setT_eq _ _ _ _
    · have hrest := foldl_fillCell_write shift seq symmetric hi rest
        (fillCell shift seq symmetric i T a) j (List.nodup_cons.mp hnd).2 hj
      have h1 : fillCell shift seq symmetric i T a j (i-1) = T j (i-1) :=
        setT_ne _ _ _ _ (fun hc => hii hc.2)
      have h2 : fillCell shift seq symmetric i T a (j-1) (i-1) = T (j-1) (i-1) :=
        setT_ne _ _ _ _ (fun hc => hii hc.2)
      calc (a :: rest).foldl (fillCell shift seq symmetric i) T j i
          = rest.foldl (fillCell shift seq symmetric i) (fillCell shift seq symmetric i T a) j i := rfl
        _ = extrapStep symmetric (seqQuot shift seq j i)
              (fillCell shift seq symmetric i T a j (i-1))
              (fillCell shift seq symmetric i T a (j-1) (i-1)) := hrest
        _ = extrapStep symmetric (seqQuot shift seq j i) (T j (i-1)) (T (j-1) (i-1)) := by
            rw [h1, h2]

/-- Folding `fillCol` over a list of columns changes no cell whose column
is not among the processed columns. -/
theorem fillCols_ne (k shift : ℕ) (seq : ℕ → ℕ) (symmetric : Bool) :
    ∀ (cols : List ℕ) (T : Tab) (j' i' : ℕ), i' ∉ cols →
      fillCols k shift seq symmetric cols T j' i' = T j' i'
  | [], _, _, _, _ => rfl
  | c :: rest, T, j', i', h => by
    have hc : i' ≠ c := fun hh => h (hh ▸ List.mem_cons_self c rest)
    have hrest : i' ∉ rest := fun hm => h (List.mem_cons_of_mem _ hm)
    calc fillCols k shift seq symmetric (c :: rest) T j' i'
        = fillCols k shift seq symmetric rest (fillCol k shift seq symmetric T c) j' i' := rfl
      _ = fillCol k shift seq symmetric T c j' i' :=
          fillCols_ne k shift seq symmetric rest _ j' i' hrest
      _ = T j' i' := foldl_fillCell_ne shift seq symmetric c _ T j' i' (Or.inl hc)

/-- Main loop invariant: after processing a strictly increasing list of
columns (all at least 1), every processed entry `(j, i)` with `i ≤ j ≤ k`
equals the extrapolation step applied to the *final* table's two parent
entries in column `i - 1`. -/
theorem fillCols_spec (k shift : ℕ) (seq : ℕ → ℕ) (symmetric : Bool) :
    ∀ (cols : List ℕ) (T : Tab), cols.Sorted (· < ·) → (∀ c ∈ cols, 1 ≤ c) →
      ∀ i j : ℕ, i ∈ cols → i ≤ j → j ≤ k →
        fillCols k shift seq symmetric cols T j i
          = extrapStep symmetric (seqQuot shift seq j i)
              (fillCols k shift seq symmetric cols T j (i-1))
              (fillCols k shift seq symmetric cols T (j-1) (i-1))
  | [], _, _, _, _, _, hmem, _, _ => absurd hmem (List.not_mem_nil _)
  | c :: rest, T, hsort, hpos, i, j, hmem, hij, hjk => by
    have hsort' := List.sorted_cons.mp hsort
    have hc1 : 1 ≤ c := hpos c (List.mem_cons_self c rest)
    rcases List.mem_cons.mp hmem with rfl | hi
    · -- the head column: it is written by `fillCol T i` and never touched again
      have hcrest : i ∉ rest := fun hm => lt_irrefl i (hsort'.1 i hm)
      have hcm1rest : i - 1 ∉ rest := fun hm => by
        have := hsort'.1 (i-1) hm; omega
      have hjmem : j ∈ List.range' i (k + 1 - i) := by
        rw [List.mem_range'_1]; omega
      have hstep : fillCol k shift seq symmetric T i j i
          = extrapStep symmetric (seqQuot shift seq j i) (T j (i-1)) (T (j-1) (i-1)) :=
        foldl_fillCell_write shift seq symmetric hc1 _ T j (List.nodup_range' _ _) hjmem
      have hfin : fillCols k shift seq symmetric (i :: rest) T j i
          = fillCol k shift seq symmetric T i j i :=
        fillCols_ne k shift seq symmetric rest _ j i hcrest
      have hpar1 : fillCols k shift seq symmetric (i :: rest) T j (i-1) = T j (i-1) := by
        have h1 : fillCols k shift seq symmetric rest (fillCol k shift seq symmetric T i) j (i-1)
            = fillCol k shift seq symmetric T i j (i-1) :=
          fillCols_ne k shift seq symmetric rest _ j (i-1) hcm1rest
        have h2 : fillCol k shift seq symmetric T i j (i-1) = T j (i-1) :=
          foldl_fillCell_ne shift seq symmetric i _ T j (i-1) (Or.inl (by omega))
        calc fillCols k shift seq symmetric (i :: rest) T j (i-1)
            = fillCols k shift seq symmetric rest (fillCol k shift seq symmetric T i) j (i-1) := rfl
          _ = T j (i-1) := by rw [h1, h2]
      have hpar2 : fillCols k shift seq symmetric (i :: rest) T (j-1) (i-1) = T (j-1) (i-1) := by
        have h1 : fillCols k shift seq symmetric rest (fillCol k shift seq symmetric T i) (j-1) (i-1)
            = fillCol k shift seq symmetric T i (j-1) (i-1) :=
          fillCols_ne k shift seq symmetric rest _ (j-1) (i-1) hcm1rest
        have h2 : fillCol k shift seq symmetric T i (j-1) (i-1) = T (j-1) (i-1) :=
          foldl_fillCell_ne shift seq symmetric i _ T (j-1) (i-1) (Or.inl (by omega))
        calc fillCols k shift seq symmetric (i :: rest) T (j-1) (i-1)
            = fillCols k shift seq symmetric rest (fillCol k shift seq symmetric T i) (j-1) (i-1) := rfl
          _ = T (j-1) (i-1) := by rw [h1, h2]
      rw [hfin, hstep, hpar1, hpar2]
    · -- a later column: apply the induction hypothesis to the tail
      exact fillCols_spec k shift seq symmetric rest (fillCol k shift seq symmetric T c)
        hsort'.2 (fun x hx => hpos x (List.mem_cons_of_mem _ hx)) i j hi hij hjk

/-- Claim C1: in every table of order `k` (first column given by the stage
computations, remaining columns filled by `fill_extrapolation_table` with
`j_initshift = 0` as done by `compute_extrapolation_table`), each entry with
`2 ≤ i ≤ j ≤ k` equals
`T[j,i-1] + (T[j,i-1] - T[j-1,i-1]) / (r^2 - 1)` for a symmetric method,
with divisor `(r - 1)` for a non-symmetric method, where
`r = seq(j)/seq(j-i+1)` — a pure function of the two stored parent entries
and `seq` alone, so recomputing any `T[j,i]` with `i > 1` from the stored
parents reproduces the stored value exactly. -/
theorem extrapolation_recurrence_idempotent (T0 : Tab) (k : ℕ) (seq : ℕ → ℕ)
    (symmetric : Bool) (i j : ℕ) (h2 : 2 ≤ i) (hij : i ≤ j) (hjk : j ≤ k) :
    compute_extrapolation_table_fill T0 k seq symmetric j i
      = extrapStep symmetric ((seq j : ℚ) / (seq (j - i + 1) : ℚ))
          (compute_extrapolation_table_fill T0 k seq symmetric j (i-1))
          (compute_extrapolation_table_fill T0 k seq symmetric (j-1) (i-1)) := by
  have hsorted : (List.range' 2 (k - 1)).Sorted (· < ·) :=
    List.pairwise_lt_range' 2 (k-1)
  have hpos : ∀ c ∈ List.range' 2 (k - 1), 1 ≤ c := by
    intro c hc
    rw [List.mem_range'_1] at hc
    omega
  have hmem : i ∈ List.range' 2 (k - 1) := by
    rw [List.mem_range'_1]
    omega
  have h := fillCols_spec k 0 seq symmetric (List.range' 2 (k - 1)) T0
    hsorted hpos i j hmem hij hjk
  simpa [compute_extrapolation_table_fill, fill_extrapolation_table, seqQuot] using h

/-- Concrete instantiation of the C1 theorem at `k = 3`, `i = 2`, `j = 3`. -/
theorem extrapolation_recurrence_idempotent_witness :
    compute_extrapolation_table_fill (fun _ _ _ => 0) 3 (fun t => 2*t) true 3 2
      = extrapStep true ((6 : ℚ) / (4 : ℚ))
          (compute_extrapolation_table_fill (fun _ _ _ => 0) 3 (fun t => 2*t) true 3 1)
          (compute_extrapolation_table_fill (fun _ _ _ => 0) 3 (fun t => 2*t) true 2 1) := by
  have h := extrapolation_recurrence_idempotent (fun _ _ _ => 0) 3 (fun t => 2*t) true 2 3
    (by decide) (by decide) (by decide)
  simpa using h

/-! Embedding of `balance_load(k, seq)` (ex_parallel.py lines 515-537).
The global `NUM_WORKERS` becomes the explicit parameter `w`. -/

/-- The Python statement `k_nj_lst[j] += [(i, seq(i))]`: append one pair to
job `j` of the job list. -/
def appendAt {α : Type} (jobs : List (List α)) (j : ℕ) (x : α) : List (List α) :=
  jobs.set j (jobs.getD j [] ++ [x])

/-- One pass of `for j in index:` in `balance_load`: deal the pairs
`(i, seq i), (i-1, seq (i-1)), ...` to the workers listed in `index`,
stopping when the row counter reaches 0 (the `if i == 0: break` guard;
in the full-round branch `i >= NUM_WORKERS` the guard never fires, so one
function models both branches).  Returns the updated job list and the
remaining row counter. -/
def dealRound (seq : ℕ → ℕ) : List ℕ → List (List (ℕ × ℕ)) → ℕ →
    List (List (ℕ × ℕ)) × ℕ
  | [], jobs, i => (jobs, i)
  | j :: rest, jobs, i =>
    if i = 0 then (jobs, 0)
    else dealRound seq rest (appendAt jobs j (i, seq i)) (i - 1)

/-- The `while 1:` loop of `balance_load`, with explicit fuel (the counter
`i` strictly decreases by `w ≥ 1` per full round, so fuel `k` suffices).
After a full round the worker order is reversed (`index = index[::-1]`,
the snake order); a partial round (`i < NUM_WORKERS`) ends the loop. -/
def balanceLoop (seq : ℕ → ℕ) (w : ℕ) : ℕ → List (List (ℕ × ℕ)) → List ℕ → ℕ →
    List (List (ℕ × ℕ))
  | 0, jobs, _, _ => jobs
  | fuel+1, jobs, index, i =>
    if w ≤ i then
      let p := dealRound seq index jobs i
      balanceLoop seq w fuel p.1 index.reverse p.2
    else (dealRound seq index jobs i).1

/-- Embedding of `balance_load(k, seq)`: if `k ≤ NUM_WORKERS` each worker
gets exactly one `(row, substep)` pair, rows in descending order
(`range(k, 0, -1)`); otherwise the rows are dealt in snake order starting
from `w` empty jobs with `index = range(NUM_WORKERS)` and `i = k`. -/
def balance_load (k w : ℕ) (seq : ℕ → ℕ) : List (List (ℕ × ℕ)) :=
  if k ≤ w then (List.range k).map (fun m => [(k - m, seq (k - m))])
  else balanceLoop seq w k (List.replicate w []) (List.range w) k

example : balance_load 5 2 (fun t => 2*t)
    = [[(5,10),(2,4),(1,2)],[(4,8),(3,6)]] := by decide

example : balance_load 3 4 (fun t => 2*t)
    = [[(3,6)],[(2,4)],[(1,2)]] := by decide

/-- The list of pairs `(r, seq r)` for the rows `1, ..., n` (the rows still
to be dealt when the counter is `n`). -/
def pairsUpTo (seq : ℕ → ℕ) (n : ℕ) : List (ℕ × ℕ) :=
  (List.range' 1 n).map (fun r => (r, seq r))

theorem appendAt_length {α : Type} (jobs : List (List α)) (j : ℕ) (x : α) :
    (appendAt jobs j x).length = jobs.length := by
  simp [appendAt]

theorem appendAt_flatten_perm {α : Type} :
    ∀ (jobs : List (List α)) (j : ℕ) (x : α), j < jobs.length →
      (appendAt jobs j x).flatten.Perm (x :: jobs.flatten)
  | [], j, _, h => absurd h (by simp)
  | hd :: tl, 0, x, _ => by
    simp only [appendAt, List.getD_cons_zero, List.set_cons_zero, List.flatten_cons,
      List.append_assoc, List.singleton_append]
    exact List.perm_middle
  | hd :: tl, j+1, x, h => by
    have hlt : j < tl.length := by simpa using h
    have ih := appendAt_flatten_perm tl j x hlt
    simp only [appendAt, List.getD_cons_succ, List.set_cons_succ, List.flatten_cons] at *
    exact (ih.append_left hd).trans List.perm_middle

theorem dealRound_length (seq : ℕ → ℕ) :
    ∀ (idx : List ℕ) (jobs : List (List (ℕ × ℕ))) (i : ℕ),
      (dealRound seq idx jobs i).1.length = jobs.length
  | [], _, _ => rfl
  | j :: rest, jobs, i => by
    by_cases h0 : i = 0
    · simp [dealRound, h0]
    · simp only [dealRound, if_neg h0]
      rw [dealRound_length seq rest, appendAt_length]

theorem dealRound_snd (seq : ℕ → ℕ) :
    ∀ (idx : List ℕ) (jobs : List (List (ℕ × ℕ))) (i : ℕ),
      (dealRound seq idx jobs i).2 = i - min i idx.length
  | [], _, i => by simp [dealRound]
  | j :: rest, jobs, i => by
    by_cases h0 : i = 0
    · simp [dealRound, h0]
    · simp only [dealRound, if_neg h0]
      rw [dealRound_snd seq rest]
      simp only [List.length_cons]
      omega

/-- Dealing a round preserves, up to permutation, the combined multiset of
already-assigned pairs and still-to-deal pairs. -/
theorem dealRound_flatten_perm (seq : ℕ → ℕ) :
    ∀ (idx : List ℕ) (jobs : List (List (ℕ × ℕ))) (i : ℕ),
      (∀ j ∈ idx, j < jobs.length) →
      ((dealRound seq idx jobs i).1.flatten ++ pairsUpTo seq (dealRound seq idx jobs i).2).Perm
        (jobs.flatten ++ pairsUpTo seq i)
  | [], jobs, i, _ => by simp [dealRound]
  | j :: rest, jobs, i, hidx => by
    by_cases h0 : i = 0
    · simp [dealRound, h0]
    · obtain ⟨m, rfl⟩ : ∃ m, i = m + 1 := ⟨i - 1, by omega⟩
      simp only [dealRound, if_neg h0]
      have hj : j < jobs.length := hidx j (List.mem_cons_self j rest)
      have hidx' : ∀ a ∈ rest, a < (appendAt jobs j (m+1, seq (m+1))).length := by
        intro a ha
        rw [appendAt_length]
        exact hidx a (List.mem_cons_of_mem _ ha)
      have ih := dealRound_flatten_perm seq rest (appendAt jobs j (m+1, seq (m+1))) m hidx'
      have happ : ((appendAt jobs j (m+1, seq (m+1))).flatten ++ pairsUpTo seq m).Perm
          (jobs.flatten ++ pairsUpTo seq (m+1)) := by
        have h1 := (appendAt_flatten_perm jobs j (m+1, seq (m+1)) hj).append_right
          (pairsUpTo seq m)
        have h2 : pairsUpTo seq (m+1) = pairsUpTo seq m ++ [(m+1, seq (m+1))] := by
          simp only [pairsUpTo, List.range'_1_concat, List.map_append, List.map_cons,
            List.map_nil]
          have : 1 + m = m + 1 := by omega
          rw [this]
        refine h1.trans ?_
        rw [h2, ← List.append_assoc]
        exact (List.perm_append_singleton _ _).symm
      have hm : ((dealRound seq rest (appendAt jobs j (m+1, seq (m+1))) ((m+1) - 1)).1.flatten ++
          pairsUpTo seq (dealRound seq rest (appendAt jobs j (m+1, seq (m+1))) ((m+1) - 1)).2).Perm
          ((appendAt jobs j (m+1, seq (m+1))).flatten ++ pairsUpTo seq m) := by
        simpa using ih
      exact hm.trans happ

theorem balanceLoop_length (seq : ℕ → ℕ) (w : ℕ) :
    ∀ (fuel : ℕ) (jobs : List (List (ℕ × ℕ))) (idx : List ℕ) (i : ℕ),
      (balanceLoop seq w fuel jobs idx i).length = jobs.length
  | 0, _, _, _ => rfl
  | fuel+1, jobs, idx, i => by
    by_cases hw : w ≤ i
    · simp only [balanceLoop, if_pos hw]
      rw [balanceLoop_length seq w fuel, dealRound_length]
    · simp only [balanceLoop, if_neg hw]
      exact dealRound_length seq idx jobs i

/-- Main invariant of the snake-dealing loop: the final flattened job list
is a permutation of the already-assigned pairs plus the pairs for rows
`1..i`, provided the fuel is at least `i`. -/
theorem balanceLoop_flatten_perm (seq : ℕ → ℕ) (w : ℕ) (hw : 1 ≤ w) :
    ∀ (fuel : ℕ) (jobs : List (List (ℕ × ℕ))) (idx : List ℕ) (i : ℕ),
      jobs.length = w → idx.length = w → (∀ j ∈ idx, j < w) → i ≤ fuel →
      (balanceLoop seq w fuel jobs idx i).flatten.Perm
        (jobs.flatten ++ pairsUpTo seq i)
  | 0, jobs, idx, i, _, _, _, hfuel => by
    have : i = 0 := by omega
    subst this
    simp [balanceLoop, pairsUpTo]
  | fuel+1, jobs, idx, i, hjl, hil, hilt, hfuel => by
    have hidx : ∀ j ∈ idx, j < jobs.length := by
      intro j hj; rw [hjl]; exact hilt j hj
    by_cases hwi : w ≤ i
    · simp only [balanceLoop, if_pos hwi]
      have hsnd : (dealRound seq idx jobs i).2 = i - w := by
        rw [dealRound_snd, hil]; omega
      have ih := balanceLoop_flatten_perm seq w hw fuel (dealRound seq idx jobs i).1
        idx.reverse (dealRound seq idx jobs i).2
        (by rw [dealRound_length, hjl])
        (by rw [List.length_reverse, hil])
        (by intro j hj; exact hilt j (List.mem_reverse.mp hj))
        (by rw [hsnd]; omega)
      refine ih.trans ?_
      exact dealRound_flatten_perm seq idx jobs i hidx
    · simp only [balanceLoop, if_neg hwi]
      have hsnd : (dealRound seq idx jobs i).2 = 0 := by
        rw [dealRound_snd, hil]; omega
      have h := dealRound_flatten_perm seq idx jobs i hidx
      rw [hsnd] at h
      simpa [pairsUpTo] using h

theorem flatten_map_singleton {α β : Type} (g : α → β) :
    ∀ l : List α, (l.map (fun x => [g x])).flatten = l.map g
  | [] => rfl
  | a :: rest => by simp [flatten_map_singleton g rest]

theorem appendAt_getD_self {α : Type} (jobs : List (List α)) (j : ℕ) (x : α)
    (h : j < jobs.length) : (appendAt jobs j x).getD j [] = jobs.getD j [] ++ [x] := by
  have h' : j < (appendAt jobs j x).length := by rw [appendAt_length]; exact h
  rw [List.getD_eq_getElem _ _ h']
  simp [appendAt]

theorem appendAt_getD_length_le {α : Type} (jobs : List (List α)) (j : ℕ) (x : α)
    (j' : ℕ) : (jobs.getD j' []).length ≤ ((appendAt jobs j x).getD j' []).length := by
  by_cases hj : j < jobs.length
  · by_cases he : j' = j
    · subst he
      rw [appendAt_getD_self jobs j' x hj]
      simp
    · by_cases hj' : j' < jobs.length
      · have h1 : j' < (appendAt jobs j x).length := by rw [appendAt_length]; exact hj'
        rw [List.getD_eq_getElem _ _ h1, List.getD_eq_getElem _ _ hj']
        simp only [appendAt]
        rw [List.getElem_set_ne (fun hh => he hh.symm)]
      · have h1 : (appendAt jobs j x).length ≤ j' := by
          rw [appendAt_length]; omega
        rw [List.getD_eq_default _ _ h1, List.getD_eq_default _ _ (by omega)]
  · have : appendAt jobs j x = jobs := by
      simp only [appendAt]
      exact List.set_eq_of_length_le (by omega)
    rw [this]

theorem dealRound_getD_length_le (seq : ℕ → ℕ) :
    ∀ (idx : List ℕ) (jobs : List (List (ℕ × ℕ))) (i j' : ℕ),
      (jobs.getD j' []).length ≤ ((dealRound seq idx jobs i).1.getD j' []).length
  | [], _, _, _ => le_refl _
  | a :: rest, jobs, i, j' => by
    by_cases h0 : i = 0
    · simp [dealRound, h0]
    · simp only [dealRound, if_neg h0]
      exact (appendAt_getD_length_le jobs a _ j').trans
        (dealRound_getD_length_le seq rest _ _ j')

theorem balanceLoop_getD_length_le (seq : ℕ → ℕ) (w : ℕ) :
    ∀ (fuel : ℕ) (jobs : List (List (ℕ × ℕ))) (idx : List ℕ) (i j' : ℕ),
      (jobs.getD j' []).length ≤ ((balanceLoop seq w fuel jobs idx i).getD j' []).length
  | 0, _, _, _, _ => le_refl _
  | fuel+1, jobs, idx, i, j' => by
    by_cases hw : w ≤ i
    · simp only [balanceLoop, if_pos hw]
      exact (dealRound_getD_length_le seq idx jobs i j').trans
        (balanceLoop_getD_length_le seq w fuel _ _ _ j')
    · simp only [balanceLoop, if_neg hw]
      exact dealRound_getD_length_le seq idx jobs i j'

/-- During a full round, every worker listed in `index` receives at least
one pair (the round is only full when `i ≥ len(index)`). -/
theorem dealRound_assigns (seq : ℕ → ℕ) :
    ∀ (idx : List ℕ) (jobs : List (List (ℕ × ℕ))) (i j : ℕ),
      j ∈ idx → idx.length ≤ i → j < jobs.length →
      1 ≤ ((dealRound seq idx jobs i).1.getD j []).length
  | [], _, _, _, hmem, _, _ => absurd hmem (List.not_mem_nil _)
  | a :: rest, jobs, i, j, hmem, hlen, hj => by
    have h0 : i ≠ 0 := by
      have := List.length_cons a rest ▸ hlen
      omega
    simp only [dealRound, if_neg h0]
    rcases List.mem_cons.mp hmem with rfl | hjr
    · have h1 : 1 ≤ ((appendAt jobs j (i, seq i)).getD j []).length := by
        rw [appendAt_getD_self jobs j _ hj]
        simp
      exact h1.trans (dealRound_getD_length_le seq rest _ _ j)
    · have hlen' : rest.length ≤ i - 1 := by
        have := List.length_cons a rest ▸ hlen
        omega
      have hj' : j < (appendAt jobs a (i, seq i)).length := by
        rw [appendAt_length]; exact hj
      exact dealRound_assigns seq rest _ (i-1) j hjr hlen' hj'

/-- Claim C2: for every order `k ≥ 1` and worker count `w ≥ 1`, the load
balancer's output is a partition — every row `1..k` paired with its
substep count `seq(row)` appears in exactly one job (no row duplicated or
dropped), no job is ever empty, and when `k ≤ w` there are exactly `k`
jobs, each holding exactly one `(row, substep)` pair, in descending row
order — hence (for a monotonically increasing `seq`) largest substep
count first. -/
theorem balance_load_partition (k w : ℕ) (seq : ℕ → ℕ) (hk : 1 ≤ k) (hw : 1 ≤ w) :
    ((balance_load k w seq).flatten.Perm ((List.range' 1 k).map (fun r => (r, seq r))))
    ∧ (∀ job ∈ balance_load k w seq, job ≠ [])
    ∧ (k ≤ w → balance_load k w seq = (List.range k).map (fun m => [(k - m, seq (k - m))]))
    ∧ (k ≤ w → (balance_load k w seq).length = k)
    ∧ (k ≤ w → StrictMono seq → ∀ m, m + 1 < k →
        (((balance_load k w seq).getD (m+1) []).headD (0,0)).2
          < (((balance_load k w seq).getD m []).headD (0,0)).2) := by
  by_cases hkw : k ≤ w
  · have hform : balance_load k w seq
        = (List.range k).map (fun m => [(k - m, seq (k - m))]) := by
      simp [balance_load, if_pos hkw]
    refine ⟨?_, ?_, fun _ => hform, fun _ => by rw [hform]; simp, ?_⟩
    · rw [hform, flatten_map_singleton]
      have h1 : (List.range' 1 k).reverse = (List.range k).map (fun i => k - i) := by
        rw [List.reverse_range']
        refine List.map_congr_left ?_
        intro a _
        omega
      have h2 : (List.range k).map (fun m => (k - m, seq (k - m)))
          = ((List.range' 1 k).reverse).map (fun r => (r, seq r)) := by
        rw [h1, List.map_map]
        rfl
      rw [h2]
      exact (List.reverse_perm _).map _
    · intro job hjob
      rw [hform] at hjob
      obtain ⟨m, _, rfl⟩ := List.mem_map.mp hjob
      simp
    · intro _ hmono m hm
      have hgd : ∀ m', m' < k → (balance_load k w seq).getD m' []
          = [(k - m', seq (k - m'))] := by
        intro m' hm'
        rw [hform]
        have hlt : m' < ((List.range k).map (fun m => [(k - m, seq (k - m))])).length := by
          simpa using hm'
        rw [List.getD_eq_getElem _ _ hlt]
        simp
      rw [hgd m (by omega), hgd (m+1) hm]
      simp only [List.headD_cons]
      exact hmono (by omega)
  · have hgt : w < k := by omega
    have hform : balance_load k w seq
        = balanceLoop seq w k (List.replicate w []) (List.range w) k := by
      simp [balance_load, if_neg hkw]
    have hperm : (balance_load k w seq).flatten.Perm
        ((List.range' 1 k).map (fun r => (r, seq r))) := by
      rw [hform]
      have h := balanceLoop_flatten_perm seq w hw k (List.replicate w [])
        (List.range w) k (by simp) (by simp) (fun j hj => List.mem_range.mp hj)
        (le_refl k)
      have hflat : (List.replicate w ([] : List (ℕ × ℕ))).flatten = [] := by
        simp
      rw [hflat] at h
      simpa [pairsUpTo] using h
    refine ⟨hperm, ?_, fun hh => absurd hh hkw, fun hh => absurd hh hkw,
      fun hh => absurd hh hkw⟩
    -- no job is empty: the first (full) round assigns a pair to every worker
    intro job hjob
    have hk1 : ∃ fuel, k = fuel + 1 := ⟨k - 1, by omega⟩
    obtain ⟨fuel, hfe⟩ := hk1
    have hunfold : balance_load k w seq
        = balanceLoop seq w fuel
            (dealRound seq (List.range w) (List.replicate w []) k).1
            (List.range w).reverse
            (dealRound seq (List.range w) (List.replicate w []) k).2 := by
      rw [hform, hfe]
      simp only [balanceLoop, if_pos (by omega : w ≤ fuel + 1)]
    have hlen : (balance_load k w seq).length = w := by
      rw [hform, balanceLoop_length, List.length_replicate]
    obtain ⟨m, hm, hjm⟩ := List.mem_iff_getElem.mp hjob
    have hmw : m < w := by rw [hlen] at hm; exact hm
    have hfirst : 1 ≤ (((dealRound seq (List.range w) (List.replicate w []) k).1).getD m []).length :=
      dealRound_assigns seq (List.range w) (List.replicate w []) k m
        (List.mem_range.mpr hmw) (by simp; omega) (by simp [hmw])
    have hfinal : 1 ≤ ((balance_load k w seq).getD m []).length := by
      rw [hunfold]
      exact hfirst.trans (balanceLoop_getD_length_le seq w fuel _ _ _ m)
    rw [List.getD_eq_getElem _ _ hm, hjm] at hfinal
    intro hne
    rw [hne] at hfinal
    simp at hfinal

/-- Concrete instantiation of the C2 theorem at `k = 5`, `w = 2` (snake
branch) with the harmonic sequence. -/
theorem balance_load_partition_witness :
    ((balance_load 5 2 (fun t => 2*t)).flatten.Perm
        ((List.range' 1 5).map (fun r => (r, 2*r))))
    ∧ (∀ job ∈ balance_load 5 2 (fun t => 2*t), job ≠ [])
    ∧ (5 ≤ 2 → balance_load 5 2 (fun t => 2*t)
        = (List.range 5).map (fun m => [(5 - m, 2*(5 - m))]))
    ∧ (5 ≤ 2 → (balance_load 5 2 (fun t => 2*t)).length = 5)
    ∧ (5 ≤ 2 → StrictMono (fun t => 2*t) → ∀ m, m + 1 < 5 →
        (((balance_load 5 2 (fun t => 2*t)).getD (m+1) []).headD (0,0)).2
          < (((balance_load 5 2 (fun t => 2*t)).getD m []).headD (0,0)).2) :=
  balance_load_partition 5 2 (fun t => 2*t) (by decide) (by decide)

/-! Embedding of the order clamp in `solve_one_step` and of the starting
order chosen by the midpoint entry points. -/

/-- Embedding of ex_parallel.py lines 1071-1076: in every adaptivity mode
other than `"fixed"` (modelled by the flag `fixed`), the extrapolation
order is limited by `k = min(k_max, max(k_min, k))` with `k_max = 10` and
`k_min = 3` before the table is built. -/
def clamp_order (fixed : Bool) (k : ℕ) : ℕ :=
  if fixed then k else min 10 (max 3 k)

/-- Embedding of `k = p//2` in `ex_midpoint_explicit_parallel`
(ex_parallel.py line 1236); the result is passed as the starting order `p`
of `extrapolation_parallel`, which initialises the loop order `k` with it. -/
def midpoint_start_order (p : ℕ) : ℕ :=
  p / 2

/-- Claim C10: in every non-fixed adaptivity mode the order used to build
the step's table is clamped to `3 ≤ k ≤ 10` (an out-of-range order is
replaced by the nearest bound, an in-range one kept), and in particular the
starting order `p//2 = 2` produced by the midpoint entry points with the
default `p = 4` is silently replaced by 3; fixed mode does not clamp. -/
theorem order_clamped_in_adaptive_modes (k : ℕ) :
    3 ≤ clamp_order false k
    ∧ clamp_order false k ≤ 10
    ∧ clamp_order false k = (if k < 3 then 3 else if 10 < k then 10 else k)
    ∧ clamp_order false (midpoint_start_order 4) = 3
    ∧ clamp_order true k = k := by
  refine ⟨?_, ?_, ?_, by decide, by simp [clamp_order]⟩
  · simp only [clamp_order, if_neg (Bool.false_ne_true)]
    omega
  · simp only [clamp_order, if_neg (Bool.false_ne_true)]
    omega
  · simp only [clamp_order, if_neg (Bool.false_ne_true)]
    split_ifs <;> omega

/-! Embedding of the dense-output acceptance loop of
`interpolate_values_at_t` (ex_parallel.py lines 1131-1155).  The
interpolating polynomial `poly` built by `interpolate_sym` /
`interpolate_nonsym` is a closure returning, at a fractional position,
the triple `(value, errint, h_int)`; it is passed in as a function, as in
the source.  The preamble of `interpolate_values_at_t` (lines 1104-1129)
only performs the function evaluations needed to build `poly` and counts
them; it is absorbed into the `poly` parameter. -/

/-- The `while t_index < len(t) and t[t_index] < t_curr + h:` loop of
`interpolate_values_at_t`, processing the remaining requested times.
State: accumulated `y_solution` and the last computed `h_int` (initially
`None`).  In `"fixed"` mode every interpolated value is accepted; in
adaptive modes a value is accepted when `errint ≤ 10` and otherwise the
loop returns immediately with `rejectStep = True` and the failing point's
`h_int` (values accepted so far are still returned, the driver discards
them). -/
def interpLoop {V : Type} (poly : ℚ → V × ℚ × ℚ) (fixed : Bool) (t_curr h : ℚ) :
    List ℚ → List V → Option ℚ → Bool × List V × Option ℚ
  | [], acc, hcur => (false, acc, hcur)
  | q :: rest, acc, hcur =>
    if q < t_curr + h then
      let r := poly ((q - t_curr) / h)
      if fixed then interpLoop poly fixed t_curr h rest (acc ++ [r.1]) (some r.2.2)
      else if r.2.1 ≤ 10 then interpLoop poly fixed t_curr h rest (acc ++ [r.1]) (some r.2.2)
      else (true, acc, some r.2.2)
    else (false, acc, hcur)

/-- Embedding of `interpolate_values_at_t` (its accept/reject loop):
returns `(rejectStep, y_solution, h_int)`. -/
def interpolate_values_at_t {V : Type} (poly : ℚ → V × ℚ × ℚ) (fixed : Bool)
    (t : List ℚ) (t_index : ℕ) (t_curr h : ℚ) : Bool × List V × Option ℚ :=
  interpLoop poly fixed t_curr h (t.drop t_index) [] none

/-- Result tuple of `solve_one_step` (ex_parallel.py line 1098), without
the evaluation counters: `(rejectStep, y, y_solution, h, k, h_new, k_new)`. -/
structure OneStepResult (V : Type) where
  reject : Bool
  y : Option V
  ysol : List V
  h : ℚ
  k : ℕ
  h_new : ℚ
  k_new : ℕ

/-- Embedding of the driver logic of `solve_one_step` (ex_parallel.py
lines 1066-1098).  The numeric sub-results are parameters: `est` is the
tuple `(rejectStep, y, h_new, k_new)` returned by
`estimate_next_step_and_order` and `poly` the interpolating polynomial.
The embedded control flow is: clamp the order (lines 1071-1076); when the
controller accepted and dense output is needed, run the interpolation
loop; in non-fixed modes an interpolation rejection overrides `h_new`
with the interpolation's `h_int` and resets `k_new` to the same (clamped)
order `k` used for this step (lines 1090-1093), while on acceptance a
smaller `h_int` only caps `h_new` (lines 1094-1095). -/
def solve_one_step_model {V : Type} (fixed dense : Bool)
    (est : Bool × Option V × ℚ × ℕ) (poly : ℚ → V × ℚ × ℚ)
    (t : List ℚ) (t_index : ℕ) (t_curr h : ℚ) (k0 : ℕ) : OneStepResult V :=
  let k := clamp_order fixed k0
  if (!est.1) && dense then
    let r := interpolate_values_at_t poly fixed t t_index t_curr h
    if !fixed then
      if r.1 then ⟨r.1, est.2.1, r.2.1, h, k, (r.2.2).getD est.2.2.1, k⟩
      else
        match r.2.2 with
        | some hi =>
          if hi < est.2.2.1 then ⟨r.1, est.2.1, r.2.1, h, k, hi, est.2.2.2⟩
          else ⟨r.1, est.2.1, r.2.1, h, k, est.2.2.1, est.2.2.2⟩
        | none => ⟨r.1, est.2.1, r.2.1, h, k, est.2.2.1, est.2.2.2⟩
    else ⟨r.1, est.2.1, r.2.1, h, k, est.2.2.1, est.2.2.2⟩
  else ⟨est.1, est.2.1, [], h, k, est.2.2.1, est.2.2.2⟩

/-! Embedding of the integration loop of `extrapolation_parallel`
(ex_parallel.py lines 452-506). -/

/-- Embedding of the step-size post-processing, first half: the NaN guard
and robustness clamp of lines 489-496.  A float NaN is modelled by
`none`: `if math.isnan(h_new): h_new = h/robustness_factor`, otherwise the
change of `h_new` is limited by the robustness factor (the two `elif`
clauses). -/
def clampRobust (h_new? : Option ℚ) (h robustness : ℚ) : ℚ :=
  match h_new? with
  | none => h / robustness
  | some hn =>
    if hn > h ∧ hn / h > robustness then h * robustness
    else if hn < h ∧ hn / h < 1 / robustness then h / robustness
    else hn

/-- The Python builtin `min` on two floats, as executable rational
comparison. -/
def minQ (a b : ℚ) : ℚ :=
  if a ≤ b then a else b

theorem minQ_le_right (a b : ℚ) : minQ a b ≤ b := by
  unfold minQ
  split_ifs with hab
  · exact hab
  · exact le_refl b

/-- Embedding of lines 489-501: after the NaN guard and robustness clamp,
`h = min(h_new, t_max - t_curr)` so the step does not pass `t_max`, and —
only when `adaptative == "fixed"` — the final step is snapped exactly to
the end time when the relative gap is below `1e-12`. -/
def update_h (fixed : Bool) (h_new? : Option ℚ) (h robustness t_curr t_max : ℚ) : ℚ :=
  let h1 := minQ (clampRobust h_new? h robustness) (t_max - t_curr)
  if fixed ∧ (t_max - (t_curr + h1)) / t_max < 1e-12 then t_max - t_curr else h1

/-- Embedding of the final NaN check of `estimate_next_step_and_order`
(ex_parallel.py lines 1057-1061): a NaN (`none`) step proposal forces
rejection regardless of the branch taken by the decision tree
(`reject0`). -/
def estimate_nan_guard (reject0 : Bool) (h_new? : Option ℚ) : Bool :=
  if h_new?.isNone then true else reject0

/-- The tuple returned by `solve_one_step` as consumed by the integration
loop (evaluation counters omitted; the returned `h` equals the `h` passed
in, and the returned order is `clamp_order fixed k`, so neither is stored
here). -/
structure Outcome (V : Type) where
  reject : Bool
  y_temp : Option V
  ysol : List V
  h_new : Option ℚ
  k_new : ℕ

/-- The mutable state of the integration loop: the output array `ys`
(modelled as a total map), the previous solution `yn`, current time,
output index, step size, order, and the step counters. -/
structure LoopState (V : Type) where
  ys : ℕ → V
  yn : V
  t_curr : ℚ
  t_index : ℕ
  h : ℚ
  k : ℕ
  cur_stp : ℕ
  nstp : ℕ
  sum_ks : ℕ
  sum_hs : ℚ

/-- The numpy slice assignment `ys[t_index:(t_index+len(ysolution))] =
ysolution`. -/
def writeList {V : Type} : (ℕ → V) → ℕ → List V → (ℕ → V)
  | ys, _, [] => ys
  | ys, i, v :: rest => writeList (Function.update ys i v) (i+1) rest

/-- One iteration of the `while t_curr < t_max:` loop of
`extrapolation_parallel` (lines 454-503), parameterised by the outcome
`o` of `solve_one_step`: store results if the step was accepted (lines
461-473), update the counters (lines 480-483), raise the max-step
exception carrying the current time (lines 485-487, `Except.error`),
otherwise post-process the step size and adopt the new order. -/
def loop_body {V : Type} (fixed : Bool) (t : ℕ → ℚ) (t_max : ℚ) (mxstep : ℕ)
    (robustness : ℚ) (o : Outcome V) (s : LoopState V) : Except ℚ (LoopState V) :=
  let k_used := clamp_order fixed s.k
  let s1 :=
    if o.reject then s
    else
      let yn' := o.y_temp.getD s.yn
      let ys' := writeList s.ys s.t_index o.ysol
      let tc' := s.t_curr + s.h
      let ti' := s.t_index + o.ysol.length
      if t ti' = tc' then
        { s with yn := yn', ys := Function.update ys' ti' yn',
                 t_curr := tc', t_index := ti' + 1 }
      else
        { s with yn := yn', ys := ys', t_curr := tc', t_index := ti' }
  let s2 := { s1 with sum_ks := s1.sum_ks + k_used, sum_hs := s1.sum_hs + s.h,
                      nstp := s1.nstp + 1, cur_stp := s1.cur_stp + 1 }
  if mxstep < s2.cur_stp then Except.error s2.t_curr
  else Except.ok { s2 with h := update_h fixed o.h_new s.h robustness s2.t_curr t_max,
                           k := o.k_new }

/-- The integration loop `while t_curr < t_max`, the per-step numeric
results supplied by the oracle `outcomes` (indexed by the step counter),
with explicit fuel. -/
def runLoop {V : Type} (fixed : Bool) (t : ℕ → ℚ) (t_max : ℚ) (mxstep : ℕ)
    (robustness : ℚ) (outcomes : ℕ → Outcome V) :
    ℕ → LoopState V → Except ℚ (LoopState V)
  | 0, s => Except.ok s
  | fuel+1, s =>
    if s.t_curr < t_max then
      match loop_body fixed t t_max mxstep robustness (outcomes s.nstp) s with
      | Except.error e => Except.error e
      | Except.ok s' => runLoop fixed t t_max mxstep robustness outcomes fuel s'
    else Except.ok s

/-- The time carried by a raised exception, if any. -/
def errTime {V : Type} : Except ℚ (LoopState V) → Option ℚ
  | Except.error e => some e
  | Except.ok _ => none

/-- The final state of a normal return, if any. -/
def okState {V : Type} : Except ℚ (LoopState V) → Option (LoopState V)
  | Except.error _ => none
  | Except.ok s => some s

/-- Embedding of the pool lifetime structure of `extrapolation_parallel`:
the worker pool is acquired before the loop (`pool = mp.Pool(...)`, line
418) and `pool.close()` (line 506) runs only after the loop returns
normally; a raised exception propagates out of the function first.  The
boolean records whether `pool.close()` executed. -/
def extrapolation_parallel_model {V : Type} (fixed : Bool) (t : ℕ → ℚ)
    (t_max : ℚ) (mxstep : ℕ) (robustness : ℚ) (outcomes : ℕ → Outcome V)
    (fuel : ℕ) (s0 : LoopState V) : Except ℚ (LoopState V) × Bool :=
  match runLoop fixed t t_max mxstep robustness outcomes fuel s0 with
  | Except.error e => (Except.error e, false)
  | Except.ok s => (Except.ok s, true)

/-! Lemmas about the interpolation accept/reject loop. -/

/-- If every requested point inside the step window has interpolation
error at most 10, the loop accepts every in-window point. -/
theorem interpLoop_all_ok {V : Type} (poly : ℚ → V × ℚ × ℚ) (t_curr h : ℚ) :
    ∀ (rem : List ℚ) (acc : List V) (hc : Option ℚ),
      (∀ q ∈ rem, q < t_curr + h → (poly ((q - t_curr) / h)).2.1 ≤ 10) →
      (interpLoop poly false t_curr h rem acc hc).1 = false
      ∧ (interpLoop poly false t_curr h rem acc hc).2.1
          = acc ++ (rem.takeWhile (fun q => decide (q < t_curr + h))).map
              (fun q => (poly ((q - t_curr) / h)).1)
  | [], acc, hc, _ => by simp [interpLoop]
  | q :: rest, acc, hc, hok => by
    by_cases hq : q < t_curr + h
    · have herr : (poly ((q - t_curr) / h)).2.1 ≤ 10 :=
        hok q (List.mem_cons_self q rest) hq
      have ih := interpLoop_all_ok poly t_curr h rest (acc ++ [(poly ((q - t_curr) / h)).1])
        (some (poly ((q - t_curr) / h)).2.2)
        (fun p hp => hok p (List.mem_cons_of_mem _ hp))
      simp only [interpLoop, if_pos hq, if_neg (Bool.false_ne_true), if_pos herr]
      refine ⟨ih.1, ?_⟩
      rw [ih.2, List.takeWhile_cons_of_pos (by simpa using hq)]
      simp
    · constructor
      · simp [interpLoop, hq]
      · rw [List.takeWhile_cons_of_neg (by simpa using hq)]
        simp [interpLoop, hq]

/-- If the requested points start with in-window passing points followed by
an in-window point whose error exceeds 10, the loop rejects at that first
failing point, returning its `h_int` and the values accepted so far. -/
theorem interpLoop_first_fail {V : Type} (poly : ℚ → V × ℚ × ℚ) (t_curr h : ℚ)
    (q : ℚ) (hq : q < t_curr + h) (hqe : ¬((poly ((q - t_curr) / h)).2.1 ≤ 10)) :
    ∀ (ts1 ts2 : List ℚ) (acc : List V) (hc : Option ℚ),
      (∀ p ∈ ts1, p < t_curr + h ∧ (poly ((p - t_curr) / h)).2.1 ≤ 10) →
      interpLoop poly false t_curr h (ts1 ++ q :: ts2) acc hc
        = (true, acc ++ ts1.map (fun p => (poly ((p - t_curr) / h)).1),
           some (poly ((q - t_curr) / h)).2.2)
  | [], ts2, acc, hc, _ => by
    simp only [List.nil_append, interpLoop, if_pos hq, if_neg (Bool.false_ne_true),
      if_neg hqe, List.map_nil, List.append_nil]
  | p :: ts1, ts2, acc, hc, hok => by
    have hp := hok p (List.mem_cons_self p ts1)
    have ih := interpLoop_first_fail poly t_curr h q hq hqe ts1 ts2
      (acc ++ [(poly ((p - t_curr) / h)).1]) (some (poly ((p - t_curr) / h)).2.2)
      (fun x hx => hok x (List.mem_cons_of_mem _ hx))
    simp only [List.cons_append, interpLoop, if_pos hp.1, if_neg (Bool.false_ne_true),
      if_pos hp.2]
    exact ih.trans (by simp)

/-- The reject path of `loop_body`: nothing is stored, only the counters
advance, the step size is post-processed and the new order adopted. -/
theorem loop_body_reject_eq {V : Type} (fixed : Bool) (t : ℕ → ℚ) (t_max : ℚ)
    (mxstep : ℕ) (robustness : ℚ) (o : Outcome V) (s : LoopState V)
    (hrej : o.reject = true) (hstp : s.cur_stp + 1 ≤ mxstep) :
    loop_body fixed t t_max mxstep robustness o s
      = Except.ok { s with sum_ks := s.sum_ks + clamp_order fixed s.k,
                           sum_hs := s.sum_hs + s.h,
                           nstp := s.nstp + 1, cur_stp := s.cur_stp + 1,
                           h := update_h fixed o.h_new s.h robustness s.t_curr t_max,
                           k := o.k_new } := by
  simp only [loop_body, hrej, if_true]
  rw [if_neg (by omega)]

theorem clampRobust_none (h robustness : ℚ) :
    clampRobust none h robustness = h / robustness := rfl

theorem update_h_none_adaptive (h robustness t_curr t_max : ℚ) :
    update_h false none h robustness t_curr t_max
      = minQ (h / robustness) (t_max - t_curr) := by
  simp [update_h, clampRobust]

/-- Claim C9 counterexample: in adaptive mode (`"order"`, not `"fixed"`)
with `t_curr = 0`, `t_max = 1` and a post-clamp step of `1 - 10⁻¹³`
(relative gap `10⁻¹³ < 10⁻¹²`), the next step size is *not* snapped to
`t_max - t_curr`. -/
theorem final_step_not_snapped_in_adaptive_mode :
    (1 - (0 + update_h false (some (1 - 1/10^13)) 1 2 0 1)) / 1 < (1e-12 : ℚ)
    ∧ update_h false (some (1 - 1/10^13)) 1 2 0 1 ≠ 1 - 0 := by
  have hcr : clampRobust (some (1 - 1/10^13)) 1 2 = 1 - 1/10^13 := by
    norm_num [clampRobust]
  have hup : update_h false (some (1 - 1/10^13)) 1 2 0 1 = 1 - 1/10^13 := by
    simp only [update_h, hcr]
    norm_num [minQ]
  constructor
  · rw [hup]
    norm_num
  · rw [hup]
    norm_num

/-- Claim C9 (amended): only in the `"fixed"` adaptivity mode, when the
remaining relative gap after the proposed next step is below `1e-12`, the
next step size is set exactly to `t_max - t_curr`; adaptive modes only cap
the step at `t_max - t_curr`. -/
theorem final_step_snapped_in_fixed_mode (h_new? : Option ℚ)
    (h robustness t_curr t_max : ℚ)
    (hgap : (t_max - (t_curr + minQ (clampRobust h_new? h robustness) (t_max - t_curr)))
        / t_max < 1e-12) :
    update_h true h_new? h robustness t_curr t_max = t_max - t_curr
    ∧ ∀ (hn : Option ℚ) (h' r' tc' tm' : ℚ),
        update_h false hn h' r' tc' tm' = minQ (clampRobust hn h' r') (tm' - tc') := by
  constructor
  · simp [update_h, hgap]
  · intro hn h' r' tc' tm'
    simp [update_h]

/-- Concrete instantiation of the C9 amended theorem: in fixed mode with
relative gap `10⁻¹³`, the step is snapped to the end time. -/
theorem final_step_snapped_in_fixed_mode_witness :
    update_h true (some (1 - 1/10^13)) 1 2 0 1 = 1 - 0
    ∧ ∀ (hn : Option ℚ) (h' r' tc' tm' : ℚ),
        update_h false hn h' r' tc' tm' = minQ (clampRobust hn h' r') (tm' - tc') :=
  final_step_snapped_in_fixed_mode (some (1 - 1/10^13)) 1 2 0 1
    (by norm_num [clampRobust, minQ])

/-- Claim C6: a NaN (`none`) step-size proposal from the order controller
forces rejection regardless of the decision-tree outcome, and the
integration loop replaces the NaN proposal by `h / robustness_factor` and
continues (returns `Except.ok`, no exception) provided the step budget is
not exhausted. -/
theorem nan_step_proposal_rejected_and_replaced {V : Type} :
    (∀ reject0 : Bool, estimate_nan_guard reject0 none = true)
    ∧ (∀ h robustness : ℚ, clampRobust none h robustness = h / robustness)
    ∧ (∀ (t : ℕ → ℚ) (t_max : ℚ) (mxstep : ℕ) (robustness : ℚ)
        (o : Outcome V) (s : LoopState V),
        o.reject = true → o.h_new = none → s.cur_stp + 1 ≤ mxstep →
        loop_body false t t_max mxstep robustness o s
          = Except.ok { s with sum_ks := s.sum_ks + clamp_order false s.k,
                               sum_hs := s.sum_hs + s.h,
                               nstp := s.nstp + 1, cur_stp := s.cur_stp + 1,
                               h := minQ (s.h / robustness) (t_max - s.t_curr),
                               k := o.k_new }) := by
  refine ⟨fun reject0 => rfl, fun h robustness => rfl, ?_⟩
  intro t t_max mxstep robustness o s hrej hnan hstp
  rw [loop_body_reject_eq false t t_max mxstep robustness o s hrej hstp, hnan,
    update_h_none_adaptive]

/-- Concrete instantiation of the C6 theorem on the loop-body conjunct. -/
theorem nan_step_proposal_rejected_and_replaced_witness :
    loop_body false (fun n => (n : ℚ)) 1 5 2
        (⟨true, none, [], none, 4⟩ : Outcome Unit)
        ⟨fun _ => (), (), 0, 1, 1, 4, 0, 0, 0, 0⟩
      = Except.ok { (⟨fun _ => (), (), 0, 1, 1, 4, 0, 0, 0, 0⟩ : LoopState Unit) with
                    sum_ks := 0 + clamp_order false 4,
                    sum_hs := 0 + 1, nstp := 0 + 1, cur_stp := 0 + 1,
                    h := minQ ((1 : ℚ) / 2) (1 - 0), k := 4 } :=
  (nan_step_proposal_rejected_and_replaced (V := Unit)).2.2
    (fun n => (n : ℚ)) 1 5 2 ⟨true, none, [], none, 4⟩
    ⟨fun _ => (), (), 0, 1, 1, 4, 0, 0, 0, 0⟩ rfl rfl (by decide)

/-! Lemmas for the max-step guard (claim C5). -/

theorem update_h_add_le (fixed : Bool) (h_new? : Option ℚ)
    (h robustness t_curr t_max : ℚ) :
    t_curr + update_h fixed h_new? h robustness t_curr t_max ≤ t_max := by
  simp only [update_h]
  split_ifs
  · linarith
  · have := minQ_le_right (clampRobust h_new? h robustness) (t_max - t_curr)
    linarith

theorem loop_body_error_le {V : Type} (fixed : Bool) (t : ℕ → ℚ) (t_max : ℚ)
    (mxstep : ℕ) (robustness : ℚ) (o : Outcome V) (s : LoopState V) (e : ℚ)
    (hs1 : s.t_curr ≤ t_max) (hs2 : s.t_curr + s.h ≤ t_max)
    (he : loop_body fixed t t_max mxstep robustness o s = Except.error e) :
    e ≤ t_max := by
  simp only [loop_body] at he
  split_ifs at he <;>
    simp only [Except.error.injEq, reduceCtorEq] at he <;>
    (try cases he) <;> simp_all <;> linarith

theorem loop_body_ok_inv {V : Type} (fixed : Bool) (t : ℕ → ℚ) (t_max : ℚ)
    (mxstep : ℕ) (robustness : ℚ) (o : Outcome V) (s s' : LoopState V)
    (hs1 : s.t_curr ≤ t_max) (hs2 : s.t_curr + s.h ≤ t_max)
    (he : loop_body fixed t t_max mxstep robustness o s = Except.ok s') :
    s'.t_curr ≤ t_max ∧ s'.t_curr + s'.h ≤ t_max := by
  simp only [loop_body] at he
  split_ifs at he <;>
    simp only [Except.ok.injEq, reduceCtorEq] at he <;>
    (try cases he) <;>
    simp_all [update_h_add_le] <;> linarith

/-- Claim C5 (amended): when the cumulative attempted-step count exceeds
`mxstep` the loop raises the max-step exception carrying the farthest time
reached, and that time never exceeds the final requested time `t_max`
(equality is possible when the step that exceeded the budget was an
accepted step landing exactly on `t_max`, so strictness does not hold in
general). -/
theorem max_step_error_carries_time_le {V : Type} (fixed : Bool) (t : ℕ → ℚ)
    (t_max : ℚ) (mxstep : ℕ) (robustness : ℚ) (outcomes : ℕ → Outcome V) :
    (∀ (o : Outcome V) (s : LoopState V), mxstep < s.cur_stp + 1 → o.reject = true →
        loop_body fixed t t_max mxstep robustness o s = Except.error s.t_curr)
    ∧ (∀ (fuel : ℕ) (s : LoopState V) (e : ℚ),
        s.t_curr ≤ t_max → s.t_curr + s.h ≤ t_max →
        errTime (runLoop fixed t t_max mxstep robustness outcomes fuel s) = some e →
        e ≤ t_max) := by
  constructor
  · intro o s hcnt hrej
    simp only [loop_body, hrej, if_true]
    rw [if_pos (by omega)]
  · intro fuel
    induction fuel with
    | zero =>
      intro s e _ _ he
      simp [runLoop, errTime] at he
    | succ fuel ih =>
      intro s e hs1 hs2 he
      simp only [runLoop] at he
      by_cases hlt : s.t_curr < t_max
      · rw [if_pos hlt] at he
        rcases hbody : loop_body fixed t t_max mxstep robustness (outcomes s.nstp) s with e' | s'
        · rw [hbody] at he
          simp only [errTime, Option.some.injEq] at he
          subst he
          exact loop_body_error_le fixed t t_max mxstep robustness _ s e' hs1 hs2 hbody
        · rw [hbody] at he
          have hinv := loop_body_ok_inv fixed t t_max mxstep robustness _ s s' hs1 hs2 hbody
          exact ih s' e hinv.1 hinv.2 he
      · rw [if_neg hlt] at he
        simp [errTime] at he

/-- Concrete instantiation of the C5 amended theorem: a run that exhausts
the budget raises an exception whose carried time is at most `t_max`. -/
theorem max_step_error_carries_time_le_witness :
    errTime (runLoop false (fun n => (n : ℚ)) 1 0 2
        (fun _ => (⟨true, none, [], some 1, 4⟩ : Outcome Unit)) 2
        ⟨fun _ => (), (), 0, 1, 1, 4, 0, 0, 0, 0⟩) = some 0
    ∧ (0 : ℚ) ≤ 1 := by
  have hrun : errTime (runLoop false (fun n => (n : ℚ)) 1 0 2
      (fun _ => (⟨true, none, [], some 1, 4⟩ : Outcome Unit)) 2
      ⟨fun _ => (), (), 0, 1, 1, 4, 0, 0, 0, 0⟩) = some 0 := by
    norm_num [runLoop, loop_body, errTime]
  refine ⟨hrun, ?_⟩
  exact (max_step_error_carries_time_le false (fun n => (n : ℚ)) 1 0 2
    (fun _ => (⟨true, none, [], some 1, 4⟩ : Outcome Unit))).2 2
    ⟨fun _ => (), (), 0, 1, 1, 4, 0, 0, 0, 0⟩ 0 (by norm_num) (by norm_num) hrun

/-- Claim C5 counterexample: with `mxstep = 1` on `[0, 1]`, a rejected
first attempt followed by an accepted step landing exactly on `t_max = 1`
raises the max-step exception carrying time `1 = t_max`, which is *not*
strictly less than the final requested time. -/
theorem max_step_error_at_exact_final_time :
    errTime (runLoop false (fun n => (n : ℚ)) 1 1 2
        (fun n => if n = 0 then (⟨true, none, [], some 1, 4⟩ : Outcome Unit)
                  else ⟨false, some (), [], some 1, 4⟩) 3
        ⟨fun _ => (), (), 0, 1, 1, 4, 0, 0, 0, 0⟩) = some 1
    ∧ ¬((1 : ℚ) < 1) := by
  refine ⟨?_, by norm_num⟩
  norm_num [runLoop, loop_body, errTime, update_h, clampRobust, minQ, writeList]

/-- Claim C8: the max-step exception propagates out of
`extrapolation_parallel` before `pool.close()` is reached (there is no
`try/finally`), so the worker pool is *not* released on that error path:
here a concrete run exhausts the budget, the exception escapes, and the
close flag is `false`. -/
theorem pool_not_released_on_max_step_error :
    (extrapolation_parallel_model false (fun n => (n : ℚ)) 1 0 2
        (fun _ => (⟨true, none, [], some 1, 4⟩ : Outcome Unit)) 2
        ⟨fun _ => (), (), 0, 1, 1, 4, 0, 0, 0, 0⟩).2 = false
    ∧ errTime (extrapolation_parallel_model false (fun n => (n : ℚ)) 1 0 2
        (fun _ => (⟨true, none, [], some 1, 4⟩ : Outcome Unit)) 2
        ⟨fun _ => (), (), 0, 1, 1, 4, 0, 0, 0, 0⟩).1 = some 0
    ∧ (extrapolation_parallel_model false (fun n => (n : ℚ)) 1 5 2
        (fun _ => (⟨false, some (), [], some 1, 4⟩ : Outcome Unit)) 2
        ⟨fun _ => (), (), 0, 1, 1, 4, 0, 0, 0, 0⟩).2 = true := by
  refine ⟨?_, ?_, ?_⟩ <;>
    norm_num [extrapolation_parallel_model, runLoop, loop_body, errTime,
      update_h, clampRobust, minQ, writeList]

/-! Embedding of the Jacobian manager (claim C7). -/

/-- Embedding of `updateJ00` (ex_parallel.py lines 549-556): the function
returns on its second line with the previous Jacobian unchanged and
`f_yn = None`; the Broyden-style rank-one update written after that
`return` statement is dead code, so it is not part of the function's
behaviour — the result does not depend on `func`, `yn`, `tn`, `yn_1` or
`f_yn_1` at all. -/
def updateJ00 {M V : Type} (previousJ00 : M) (func : V → ℚ → V) (yn : V)
    (tn : ℚ) (yn_1 f_yn_1 : V) : M × Option V :=
  (previousJ00, none)

/-- Embedding of `getJacobian` (ex_parallel.py lines 564-610).  The dict
`methodargs` becomes the flag `hasMethodargs` together with the returned
stored Jacobian (`none` when nothing is stored); the finite-difference
estimator `forward_diff.Jacobian` — an external module, out of scope per
the spec — is the opaque parameter `fdJacobian` returning the estimate
and its extra evaluation count; the globals `useGrad`, `freeze` and
`previousJ00` are explicit arguments.  Returns
`(f_yn, fe_tot, je_tot, stored J00, new previousJ00)`. -/
def getJacobian {M V : Type} (useGrad freeze hasMethodargs hasGrad : Bool)
    (fdJacobian : V → V → M × ℕ) (gradJ : V → ℚ → M) (func : V → ℚ → V)
    (yn : V) (tn : ℚ) (rejectPreviousStep : Bool)
    (previousStepSolution : V × V) (previousJ00 : M) :
    Option V × ℕ × ℕ × Option M × M :=
  if !hasMethodargs then (none, 0, 0, none, previousJ00)
  else if !useGrad || !hasGrad then
    if freeze && !rejectPreviousStep then
      let u := updateJ00 previousJ00 func yn tn previousStepSolution.1
        previousStepSolution.2
      (u.2, 0, 0, some u.1, previousJ00)
    else
      let f_yn := func yn tn
      let p := fdJacobian yn f_yn
      (some f_yn, 1 + p.2, 1, some p.1, p.1)
  else (none, 0, 1, some (gradJ yn tn), previousJ00)

/-- Claim C7: with the freeze policy enabled and the previous step not
rejected, `getJacobian` stores the previous step's Jacobian completely
unchanged (no function or Jacobian evaluations), because `updateJ00` is a
no-op placeholder returning its first argument for *all* inputs — the
Broyden-style update below its `return` is never executed. -/
theorem jacobian_freeze_returns_previous_unchanged {M V : Type}
    (previousJ00 : M) (func : V → ℚ → V) (yn : V) (tn : ℚ) (yn_1 f_yn_1 : V)
    (fdJacobian : V → V → M × ℕ) (gradJ : V → ℚ → M) (hasGrad : Bool)
    (previousStepSolution : V × V) :
    updateJ00 previousJ00 func yn tn yn_1 f_yn_1 = (previousJ00, none)
    ∧ getJacobian false true true hasGrad fdJacobian gradJ func yn tn false
        previousStepSolution previousJ00
      = (none, 0, 0, some previousJ00, previousJ00) :=
  ⟨rfl, rfl⟩

/-! Real-valued embedding of `error_norm`, `estimate_next_step_and_order`
and `getPolynomial` (float arithmetic modelled by `ℝ`; the fractional
powers force the real field here).  A float NaN cannot arise in this
model; the source's final NaN check is modelled by `estimate_nan_guard`
above. -/

/-- Embedding of `error_norm(y1, y2, atol, rtol)` (ex_parallel.py lines
42-53): `tol = atol + max(|y1|,|y2|)*rtol` componentwise, then
`‖(y1-y2)/tol‖₂ / len(y1)^0.5`. -/
noncomputable def error_normR {N : ℕ} (y1 y2 : Fin N → ℝ) (atol rtol : ℝ) : ℝ :=
  Real.sqrt (Finset.univ.sum fun i =>
      ((y1 i - y2 i) / (atol + max |y1 i| |y2 i| * rtol)) ^ 2)
    / Real.sqrt N

/-- Embedding of the work function `A_k(k)` of
`estimate_next_step_and_order` (lines 999-1008): expected time to compute
`k` table lines, `max(seq(k), (Σ_{i<k} seq(i+1))/NUM_WORKERS) + sizeODE`. -/
noncomputable def A_work (seq : ℕ → ℕ) (w : ℕ) (sizeODE : ℝ) (k : ℕ) : ℝ :=
  max (seq k : ℝ) ((Finset.range k).sum (fun i => (seq (i+1) : ℝ)) / w) + sizeODE

/-- Embedding of `H_k = lambda h, k, err_k: h*0.94*(0.65/err_k)**(1/(2*k-1))`
(line 1010). -/
noncomputable def H_step (h : ℝ) (k : ℕ) (err : ℝ) : ℝ :=
  h * 0.94 * (0.65 / err) ^ ((1 : ℝ) / (2 * (k : ℝ) - 1))

/-- The result tuple of `estimate_next_step_and_order`. -/
structure EstimateResult (N : ℕ) where
  reject : Bool
  y : Option (Fin N → ℝ)
  h_new : ℝ
  k_new : ℕ

/-- Embedding of `estimate_next_step_and_order(T, k, h, atol, rtol, seq,
adaptative)` (ex_parallel.py lines 959-1063): fixed mode always accepts
`T[k,k]` with `h`, `k` unchanged; otherwise the error norms at orders
`k-2`, `k-1`, `k` are compared against 1 following the decision table of
lines 1027-1055.  Globals `NUM_WORKERS` and `addwork` are the parameters
`w` and `addwork`; the final NaN check (lines 1060-1061) is modelled by
`estimate_nan_guard` since `ℝ` has no NaN. -/
noncomputable def estimate_next_step_and_order {N : ℕ} (fixed : Bool)
    (T : ℕ → ℕ → (Fin N → ℝ)) (k : ℕ) (h atol rtol : ℝ) (seq : ℕ → ℕ)
    (w : ℕ) (addwork : Bool) : EstimateResult N :=
  if fixed then ⟨false, some (T k k), h, k⟩
  else
    let sizeODE : ℝ := if addwork then N else 0
    let err_k_2 := error_normR (T (k-2) (k-3)) (T (k-2) (k-2)) atol rtol
    let err_k_1 := error_normR (T (k-1) (k-2)) (T (k-1) (k-1)) atol rtol
    let err_k := error_normR (T k (k-1)) (T k k) atol rtol
    let h_k_2 := H_step h (k-2) err_k_2
    let h_k_1 := H_step h (k-1) err_k_1
    let h_k := H_step h k err_k
    let w_k_2 := A_work seq w sizeODE (k-2) / h_k_2
    let w_k_1 := A_work seq w sizeODE (k-1) / h_k_1
    let w_k := A_work seq w sizeODE k / h_k
    if err_k_1 ≤ 1 then
      let y := if err_k ≤ 1 then T k k else T (k-1) (k-1)
      let k_new := if w_k_1 < 0.9 * w_k_2 then k else k - 1
      let h_new := if k_new ≤ k - 1 then h_k_1
                   else h_k_1 * A_work seq w sizeODE k / A_work seq w sizeODE (k-1)
      ⟨false, some y, h_new, k_new⟩
    else if err_k ≤ 1 then
      let k_new := if w_k_1 < 0.9 * w_k then k - 1
                   else (if w_k < 0.9 * w_k_1 then k + 1 else k)
      let h_new := if k_new = k - 1 then h_k_1
                   else (if k_new = k then h_k
                         else h_k * A_work seq w sizeODE (k+1) / A_work seq w sizeODE k)
      ⟨false, some (T k k), h_new, k_new⟩
    else
      let k_new := if w_k_1 < 0.9 * w_k then k - 1 else k
      let h_new := min (if k_new = k - 1 then h_k_1 else h_k) h
      ⟨true, none, h_new, k_new⟩

/-- Evaluation of the interpolating polynomial inside `getPolynomial`
(lines 774-781): `res = a[0] + Σ_{i≥1} a[i]·(t - pol_shift)^i`. -/
noncomputable def polyEvalR {N : ℕ} (a : List (Fin N → ℝ)) (pol_shift t : ℝ) :
    Fin N → ℝ :=
  fun n => (Finset.range a.length).sum fun i =>
    (a.getD i (fun _ => 0)) n * (t - pol_shift) ^ i

/-- Embedding of the closure returned by
`getPolynomial(a_u, a_u_1, H, degree, pol_shift, atol, rtol)` (lines
773-789): evaluate the two polynomials, their disagreement (in the step
error norm) is the interpolation error `errint`, and the suggested step is
`h_int = H*(1/errint)**(1/degree)`. -/
noncomputable def getPolynomialR {N : ℕ} (a_u a_u_1 : List (Fin N → ℝ))
    (H : ℝ) (degree : ℕ) (pol_shift atol rtol : ℝ) (t : ℝ) :
    (Fin N → ℝ) × ℝ × ℝ :=
  let res := polyEvalR a_u pol_shift t
  let res_u_1 := polyEvalR a_u_1 pol_shift t
  let errint := error_normR res res_u_1 atol rtol
  (res, errint, H * (1 / errint) ^ ((1 : ℝ) / (degree : ℝ)))

/-- An interpolation error above 10 makes the damping factor
`(1/errint)^(1/degree)` strictly less than one. -/
theorem rpow_factor_lt_one {x : ℝ} (hx : 10 < x) {d : ℕ} (hd : 1 ≤ d) :
    (1 / x) ^ ((1 : ℝ) / (d : ℝ)) < 1 := by
  have hx0 : (0 : ℝ) < x := by linarith
  have h0 : (0 : ℝ) ≤ 1 / x := by positivity
  have h1 : 1 / x < 1 := by
    rw [div_lt_one hx0]
    linarith
  have hd0 : (0 : ℝ) < (1 : ℝ) / (d : ℝ) := by
    have hdr : (0 : ℝ) < (d : ℝ) := by
      exact_mod_cast Nat.pos_of_ne_zero (by omega)
    positivity
  exact Real.rpow_lt_one h0 h1 hd0

/-- The suggested retry step of `getPolynomial` is strictly smaller than
the current step `H` whenever the interpolation error exceeds 10. -/
theorem getPolynomialR_h_int_lt {N : ℕ} (a_u a_u_1 : List (Fin N → ℝ))
    (H : ℝ) (degree : ℕ) (pol_shift atol rtol t : ℝ) (hH : 0 < H)
    (hdeg : 1 ≤ degree)
    (herr : 10 < (getPolynomialR a_u a_u_1 H degree pol_shift atol rtol t).2.1) :
    (getPolynomialR a_u a_u_1 H degree pol_shift atol rtol t).2.2 < H := by
  simp only [getPolynomialR] at herr ⊢
  have hfac := rpow_factor_lt_one herr hdeg
  calc H * (1 / error_normR (polyEvalR a_u pol_shift t) (polyEvalR a_u_1 pol_shift t)
          atol rtol) ^ ((1 : ℝ) / (degree : ℝ))
      < H * 1 := by
        exact mul_lt_mul_of_pos_left hfac hH
    _ = H := mul_one H

/-- Claim C4: whenever a step is rejected — by the order controller (both
error norms at orders `k-1` and `k` exceed 1) or by the interpolation
error check (`errint > 10`), or through the NaN guard replacement — the
proposed retry step never exceeds the current step `h`. -/
theorem rejected_step_proposal_never_larger :
    (∀ (N : ℕ) (T : ℕ → ℕ → (Fin N → ℝ)) (k : ℕ) (h atol rtol : ℝ)
        (seq : ℕ → ℕ) (w : ℕ) (addwork : Bool),
      ¬(error_normR (T (k-1) (k-2)) (T (k-1) (k-1)) atol rtol ≤ 1) →
      ¬(error_normR (T k (k-1)) (T k k) atol rtol ≤ 1) →
      (estimate_next_step_and_order false T k h atol rtol seq w addwork).reject = true
      ∧ (estimate_next_step_and_order false T k h atol rtol seq w addwork).h_new ≤ h)
    ∧ (∀ (N : ℕ) (a_u a_u_1 : List (Fin N → ℝ)) (H : ℝ) (degree : ℕ)
        (pol_shift atol rtol t : ℝ), 0 < H → 1 ≤ degree →
      10 < (getPolynomialR a_u a_u_1 H degree pol_shift atol rtol t).2.1 →
      (getPolynomialR a_u a_u_1 H degree pol_shift atol rtol t).2.2 < H)
    ∧ (∀ (h robustness : ℚ), 0 ≤ h → 1 ≤ robustness →
        clampRobust none h robustness ≤ h) := by
  refine ⟨?_, ?_, ?_⟩
  · intro N T k h atol rtol seq w addwork h1 h2
    simp only [estimate_next_step_and_order, Bool.false_eq_true, if_false,
      if_neg h1, if_neg h2]
    exact ⟨trivial, min_le_right _ _⟩
  · intro N a_u a_u_1 H degree pol_shift atol rtol t hH hdeg herr
    exact getPolynomialR_h_int_lt a_u a_u_1 H degree pol_shift atol rtol t hH hdeg herr
  · intro h robustness hh hr
    rw [clampRobust_none]
    exact div_le_self hh hr

/-- Evaluation helper: the error norm of two one-dimensional constant
vectors at `atol = 1`, `rtol = 0` is the absolute difference. -/
theorem error_normR_single (a b : ℝ) :
    error_normR (N := 1) (fun _ => a) (fun _ => b) 1 0 = |a - b| := by
  simp only [error_normR]
  norm_num [Fin.sum_univ_one, Real.sqrt_sq_eq_abs]

/-- Evaluation helper: a single-coefficient polynomial is constant. -/
theorem polyEvalR_single {N : ℕ} (c : Fin N → ℝ) (ps t : ℝ) :
    polyEvalR [c] ps t = c := by
  funext n
  simp [polyEvalR, Finset.sum_range_one]

/-- Concrete instantiation of the C4 theorem: a table whose `k-1` and `k`
error norms are 3 rejects with a proposal at most `h = 1`; a polynomial
pair with interpolation error 20 yields a retry step below `H = 1`; the
NaN replacement `h/robustness` with `h = 1`, robustness 2 is at most `h`. -/
theorem rejected_step_proposal_never_larger_witness :
    ((estimate_next_step_and_order false
        (fun j i => fun _ : Fin 1 => if i = j then (0:ℝ) else 3) 3 1 1 0
        (fun t => 2*t) 1 false).reject = true
      ∧ (estimate_next_step_and_order false
        (fun j i => fun _ : Fin 1 => if i = j then (0:ℝ) else 3) 3 1 1 0
        (fun t => 2*t) 1 false).h_new ≤ 1)
    ∧ (getPolynomialR (N := 1) [fun _ => 0] [fun _ => 20] 1 1 0 1 0 0).2.2 < 1
    ∧ clampRobust none 1 2 ≤ 1 := by
  have h1 : ¬(error_normR (N := 1) (fun _ => (3:ℝ)) (fun _ => (0:ℝ)) 1 0 ≤ 1) := by
    rw [error_normR_single]
    norm_num
  refine ⟨?_, ?_, ?_⟩
  · exact (rejected_step_proposal_never_larger.1 1
      (fun j i => fun _ : Fin 1 => if i = j then (0:ℝ) else 3) 3 1 1 0
      (fun t => 2*t) 1 false) h1 h1
  · refine rejected_step_proposal_never_larger.2.1 1 [fun _ => 0] [fun _ => 20]
      1 1 0 1 0 0 (by norm_num) (by norm_num) ?_
    have hval : (getPolynomialR (N := 1) [fun _ => 0] [fun _ => 20] 1 1 0 1 0 0).2.1
        = 20 := by
      simp only [getPolynomialR, polyEvalR_single]
      rw [error_normR_single]
      norm_num
    rw [hval]
    norm_num
  · exact rejected_step_proposal_never_larger.2.2 1 2 (by norm_num) (by norm_num)

/-- Claim C3 (amended): when dense output is needed and the order
controller accepted the step (non-fixed mode): (a) if the interpolation
error estimate is at most 10 at every requested in-window time, all
interpolated values are accepted; (b) otherwise the entire step is
rejected, the retry step is the `h_int` derived from the interpolation
error at the *first* requested point whose estimate exceeds 10 (the worst
among the points evaluated, evaluation stopping there), and the retry
keeps the same (clamped) order `k` instead of the controller's `k_new`;
(c) the integration loop discards the already-produced intermediate
results of a rejected step (`ys`, `t_curr`, `t_index`, `yn` unchanged);
(d) that retry step is strictly smaller than `h` whenever the failing
error exceeds 10, by the `getPolynomial` formula. -/
theorem interpolation_reject_retry_semantics {V : Type} :
    (∀ (est : Bool × Option V × ℚ × ℕ) (poly : ℚ → V × ℚ × ℚ) (t : List ℚ)
        (t_index : ℕ) (t_curr h : ℚ) (k0 : ℕ),
        est.1 = false →
        (∀ q ∈ t.drop t_index, q < t_curr + h → (poly ((q - t_curr) / h)).2.1 ≤ 10) →
        (solve_one_step_model false true est poly t t_index t_curr h k0).reject = false
        ∧ (solve_one_step_model false true est poly t t_index t_curr h k0).ysol
            = ((t.drop t_index).takeWhile (fun q => decide (q < t_curr + h))).map
                (fun q => (poly ((q - t_curr) / h)).1))
    ∧ (∀ (est : Bool × Option V × ℚ × ℕ) (poly : ℚ → V × ℚ × ℚ) (t : List ℚ)
        (t_index : ℕ) (t_curr h : ℚ) (k0 : ℕ) (ts1 ts2 : List ℚ) (q : ℚ),
        est.1 = false →
        t.drop t_index = ts1 ++ q :: ts2 →
        (∀ p ∈ ts1, p < t_curr + h ∧ (poly ((p - t_curr) / h)).2.1 ≤ 10) →
        q < t_curr + h → ¬((poly ((q - t_curr) / h)).2.1 ≤ 10) →
        (solve_one_step_model false true est poly t t_index t_curr h k0).reject = true
        ∧ (solve_one_step_model false true est poly t t_index t_curr h k0).h_new
            = (poly ((q - t_curr) / h)).2.2
        ∧ (solve_one_step_model false true est poly t t_index t_curr h k0).k_new
            = clamp_order false k0
        ∧ (solve_one_step_model false true est poly t t_index t_curr h k0).ysol
            = ts1.map (fun p => (poly ((p - t_curr) / h)).1))
    ∧ (∀ (tArr : ℕ → ℚ) (t_max : ℚ) (mxstep : ℕ) (robustness : ℚ)
        (o : Outcome V) (s : LoopState V),
        o.reject = true → s.cur_stp + 1 ≤ mxstep →
        okState (loop_body false tArr t_max mxstep robustness o s)
          = some { s with sum_ks := s.sum_ks + clamp_order false s.k,
                          sum_hs := s.sum_hs + s.h,
                          nstp := s.nstp + 1, cur_stp := s.cur_stp + 1,
                          h := update_h false o.h_new s.h robustness s.t_curr t_max,
                          k := o.k_new })
    ∧ (∀ (N : ℕ) (a_u a_u_1 : List (Fin N → ℝ)) (H : ℝ) (degree : ℕ)
        (pol_shift atol rtol t : ℝ), 0 < H → 1 ≤ degree →
        10 < (getPolynomialR a_u a_u_1 H degree pol_shift atol rtol t).2.1 →
        (getPolynomialR a_u a_u_1 H degree pol_shift atol rtol t).2.2 < H) := by
  refine ⟨?_, ?_, ?_, ?_⟩
  · intro est poly t t_index t_curr h k0 hrej hok
    have hall := interpLoop_all_ok poly t_curr h (t.drop t_index) [] none hok
    rcases hr : interpolate_values_at_t poly false t t_index t_curr h with ⟨r1, ys1, hi1⟩
    rw [interpolate_values_at_t] at hr
    rw [hr] at hall
    simp only [List.nil_append] at hall
    obtain ⟨hfst, hsnd⟩ := hall
    subst hfst
    simp only [solve_one_step_model, hrej, Bool.not_false, Bool.true_and,
      interpolate_values_at_t, hr, if_true, Bool.false_eq_true, if_false]
    cases hi1 with
    | none => exact ⟨by simp, hsnd⟩
    | some hi =>
      by_cases hlt : hi < est.2.2.1
      · simp only [if_pos hlt]
        exact ⟨by simp, hsnd⟩
      · simp only [if_neg hlt]
        exact ⟨by simp, hsnd⟩
  · intro est poly t t_index t_curr h k0 ts1 ts2 q hrej hsplit hok hq hqe
    have hfail := interpLoop_first_fail poly t_curr h q hq hqe ts1 ts2 [] none hok
    have hinterp : interpolate_values_at_t poly false t t_index t_curr h
        = (true, ts1.map (fun p => (poly ((p - t_curr) / h)).1),
           some (poly ((q - t_curr) / h)).2.2) := by
      rw [interpolate_values_at_t, hsplit, hfail]
      simp
    simp only [solve_one_step_model, hrej, Bool.not_false, Bool.true_and,
      hinterp, if_true, Bool.false_eq_true, if_false]
    exact ⟨by simp, by simp, by simp, by simp⟩
  · intro tArr t_max mxstep robustness o s hrej hstp
    rw [loop_body_reject_eq false tArr t_max mxstep robustness o s hrej hstp]
    rfl
  · intro N a_u a_u_1 H degree pol_shift atol rtol t hH hdeg herr
    exact getPolynomialR_h_int_lt a_u a_u_1 H degree pol_shift atol rtol t hH hdeg herr

/-- A concrete interpolating polynomial used to refute the "worst error"
reading: the first requested point (`θ = 1/4`) has error 20 and suggests
step `1/2`; the later requested point (`θ = 1/2`) has the worst error 100
and would suggest step `1/10`. -/
def interpPolyCex : ℚ → Unit × ℚ × ℚ :=
  fun θ => ((), (if θ < 3/8 then 20 else 100, if θ < 3/8 then 1/2 else 1/10))

/-- Claim C3 counterexample (to the claim as stated): with requested
interior times `1/4` and `1/2` inside the step `[0, 1]`, both failing
(errors 20 and 100), the step is rejected with retry step `1/2` taken
from the *first* failing point — not from the worst interpolation error
over the requested points, whose suggested step would be `1/10`. -/
theorem interpolation_reject_uses_first_not_worst_point :
    (solve_one_step_model false true ((false, some (), (1:ℚ), 5) : Bool × Option Unit × ℚ × ℕ)
        interpPolyCex [0, 1/4, 1/2, 1] 1 0 1 4).reject = true
    ∧ (solve_one_step_model false true ((false, some (), (1:ℚ), 5) : Bool × Option Unit × ℚ × ℕ)
        interpPolyCex [0, 1/4, 1/2, 1] 1 0 1 4).h_new = 1/2
    ∧ (interpPolyCex ((1/2 - 0) / 1)).2.1 = 100
    ∧ (interpPolyCex ((1/4 - 0) / 1)).2.1 = 20
    ∧ ((1:ℚ)/2) < 0 + 1
    ∧ (solve_one_step_model false true ((false, some (), (1:ℚ), 5) : Bool × Option Unit × ℚ × ℕ)
        interpPolyCex [0, 1/4, 1/2, 1] 1 0 1 4).h_new ≠ (interpPolyCex ((1/2 - 0) / 1)).2.2 := by
  have hrun : solve_one_step_model false true
      ((false, some (), (1:ℚ), 5) : Bool × Option Unit × ℚ × ℕ)
      interpPolyCex [0, 1/4, 1/2, 1] 1 0 1 4
      = ⟨true, some (), [], 1, clamp_order false 4, 1/2, clamp_order false 4⟩ := by
    norm_num [solve_one_step_model, interpolate_values_at_t, interpLoop, interpPolyCex]
  rw [hrun]
  norm_num [interpPolyCex]

/-- A constant failing polynomial for the C3 witness: every point has
interpolation error 42 and suggested step `1/7`. -/
def interpPolyWit : ℚ → Unit × ℚ × ℚ :=
  fun _ => ((), (42, 1/7))

/-- Concrete instantiation of the C3 theorem's rejection conjunct: a
failing first requested point rejects the step, returns its `h_int` and
keeps the clamped order. -/
theorem interpolation_reject_retry_semantics_witness :
    (solve_one_step_model false true ((false, some (), (1:ℚ), 5) : Bool × Option Unit × ℚ × ℕ)
        interpPolyWit [0, 1/2, 1] 1 0 1 4).reject = true
    ∧ (solve_one_step_model false true ((false, some (), (1:ℚ), 5) : Bool × Option Unit × ℚ × ℕ)
        interpPolyWit [0, 1/2, 1] 1 0 1 4).h_new = (interpPolyWit ((1/2 - 0) / 1)).2.2
    ∧ (solve_one_step_model false true ((false, some (), (1:ℚ), 5) : Bool × Option Unit × ℚ × ℕ)
        interpPolyWit [0, 1/2, 1] 1 0 1 4).k_new = clamp_order false 4
    ∧ (solve_one_step_model false true ((false, some (), (1:ℚ), 5) : Bool × Option Unit × ℚ × ℕ)
        interpPolyWit [0, 1/2, 1] 1 0 1 4).ysol
        = ([] : List ℚ).map (fun p => (interpPolyWit ((p - 0) / 1)).1) :=
  (interpolation_reject_retry_semantics (V := Unit)).2.1
    (false, some (), 1, 5) interpPolyWit [0, 1/2, 1] 1 0 1 4 [] [1] (1/2)
    rfl rfl (by simp) (by norm_num) (by norm_num [interpPolyWit])

end ExParallel
